import Mathlib

/-
Formal model of the trigger-clustering core of `pylal/ligolw_sicluster.py`
(repository spxiwh/pycbc-pylal).

The Python module works on rows of a sngl_inspiral table; each row exposes a
GPS end time, a signal-to-noise ratio `snr`, and further payload columns that
the clustering code never touches.  We model a row as a `Trigger` with an
integer `time`, an integer `snr` and a `payload` tag standing for all other
columns.  Times and windows are integers (LIGOTimeGPS values are totally
ordered fixed-point numbers; the claims only use their ordered additive
structure).

`ClusterSnglInspiralTable(triggers, testfunc, clusterfunc, twindow,
bailoutfunc)` takes caller-supplied policy functions; we bundle them in
`Policy`.  Python calls `testfunc(a, b, twindow)` in the scan, and
`triggers.sort(testfunc)` uses the same function as a two-argument cmp-style
comparator, the third parameter falling back to its default value; `wdflt`
records that default.  Python's `list.sort` with a comparator is a stable
sort placing `a` before `b` when `cmp a b ≤ 0`; we model it with the stable
`List.insertionSort` and the order `fun a b => cmp a b ≤ 0`, which agrees
with every stable sort for cmp-consistent comparators.

The two nested `while` loops and the outer `while True:` loop are modelled
as structurally recursive functions on an explicit fuel argument; the
wrappers instantiate the fuel with the exact loop measure (`len - j` for
the inner loop, which decreases by exactly one on both a merge, where the
list shrinks, and a `j += 1` advance; `len - i` for the outer loop; and
`len + 1` passes for the `while True:` loop, shown sufficient in
`clusterFuel_isSome`).  On exhausted fuel the functions return the state
unchanged, which on the wrappers' fuel coincides with the loop-exit branch.
-/

structure Trigger where
  time : Int
  snr : Int
  payload : Nat
deriving DecidableEq, Repr

instance : Inhabited Trigger := ⟨⟨0, 0, 0⟩⟩

/-- Embedding of `SnglInspiralCluster(a, b)` from `ligolw_sicluster.py`:
return `b` when `b.snr >= a.snr`, else `a`. -/
def SnglInspiralCluster (a b : Trigger) : Trigger :=
  if b.snr ≥ a.snr then b else a

/-- The policy-function arguments of `ClusterSnglInspiralTable`:
`test` is `testfunc` (returns an integer, `0` meaning "cluster these two"),
`wdflt` is the default value of `testfunc`'s third parameter (used when
`list.sort` calls it with two arguments), `clusterfunc` merges two triggers,
`twindow` is the cluster window passed to `testfunc` in the scan, and
`bail` is the optional `bailoutfunc` (nonzero meaning "stop this inner
scan"). -/
structure Policy where
  test : Trigger → Trigger → Int → Int
  wdflt : Int
  clusterfunc : Trigger → Trigger → Trigger
  twindow : Int
  bail : Option (Trigger → Trigger → Int)

/-- The comparator `triggers.sort(testfunc)` sorts by: `a` may stay before
`b` iff `testfunc(a, b)` (third argument defaulted) is `≤ 0`. -/
def sortLe (P : Policy) (a b : Trigger) : Prop :=
  P.test a b P.wdflt ≤ 0

instance (P : Policy) : DecidableRel (sortLe P) := fun a b =>
  inferInstanceAs (Decidable (P.test a b P.wdflt ≤ 0))

/-- The sort performed at the top of each pass of
`ClusterSnglInspiralTable`: only when a `bailoutfunc` was supplied,
`triggers.sort(testfunc)`. -/
def sortIfBail (P : Policy) (ts : List Trigger) : List Trigger :=
  if P.bail.isSome then List.insertionSort (sortLe P) ts else ts

/-- The inner `while j < len(triggers)` loop of `ClusterSnglInspiralTable`,
for a fixed outer index `i`, structurally recursive on `fuel`.  `did` is
`did_cluster`; `cnt` is a ghost counter recording how many merges
(`del triggers[j]`) have been performed — it influences nothing.  On
`testfunc(triggers[i], triggers[j], twindow) == 0` the code sets
`triggers[i] = clusterfunc(triggers[i], triggers[j])`, deletes index `j`,
sets `did_cluster = True` and re-tests the same `j`; otherwise, if a
bailout was supplied and returns `0` ("considered for clustering"), `j`
advances; a nonzero (truthy) bailout value breaks the inner loop. -/
def scanJ (P : Policy) : Nat → List Trigger → Nat → Nat → Bool → Nat →
    List Trigger × Bool × Nat
  | 0, ts, _, _, did, cnt => (ts, did, cnt)
  | fuel + 1, ts, i, j, did, cnt =>
    if j < ts.length then
      if P.test (ts.getD i default) (ts.getD j default) P.twindow = 0 then
        scanJ P fuel
          ((ts.set i (P.clusterfunc (ts.getD i default) (ts.getD j default))).eraseIdx j)
          i j true (cnt + 1)
      else
        match P.bail with
        | some bf =>
          if bf (ts.getD i default) (ts.getD j default) = 0 then
            scanJ P fuel ts i (j + 1) did cnt
          else (ts, did, cnt)
        | none => scanJ P fuel ts i (j + 1) did cnt
    else (ts, did, cnt)

/-- The inner loop entered with its exact measure as fuel: on both kinds of
recursive step (`del triggers[j]` and `j += 1`) `len - j` decreases by
exactly one, so `len - j` units never run out. -/
def scanJFrom (P : Policy) (ts : List Trigger) (i j : Nat) (did : Bool) (cnt : Nat) :
    List Trigger × Bool × Nat :=
  scanJ P (ts.length - j) ts i j did cnt

theorem scanJ_props (P : Policy) (fuel : Nat) :
    ∀ ts i j did cnt,
      (scanJ P fuel ts i j did cnt).1.length + (scanJ P fuel ts i j did cnt).2.2 =
          ts.length + cnt ∧
      cnt ≤ (scanJ P fuel ts i j did cnt).2.2 ∧
      ((scanJ P fuel ts i j did cnt).2.1 = false →
        (scanJ P fuel ts i j did cnt).1 = ts ∧ did = false ∧
          (scanJ P fuel ts i j did cnt).2.2 = cnt) ∧
      ((scanJ P fuel ts i j did cnt).2.1 = true →
        did = true ∨ cnt < (scanJ P fuel ts i j did cnt).2.2) := by
  induction fuel with
  | zero =>
    intro ts i j did cnt
    refine ⟨by simp [scanJ], by simp [scanJ], ?_, ?_⟩
    · intro hd
      simp [scanJ] at hd ⊢
      exact hd
    · intro hd
      simp [scanJ] at hd
      exact Or.inl hd
  | succ fuel ih =>
    intro ts i j did cnt
    rw [scanJ]
    by_cases h : j < ts.length
    · simp only [if_pos h]
      by_cases htest : P.test (ts.getD i default) (ts.getD j default) P.twindow = 0
      · simp only [if_pos htest]
        obtain ⟨h1, h2, h3, _⟩ := ih
          ((ts.set i (P.clusterfunc (ts.getD i default) (ts.getD j default))).eraseIdx j)
          i j true (cnt + 1)
        have hlen : ((ts.set i
            (P.clusterfunc (ts.getD i default) (ts.getD j default))).eraseIdx j).length =
            ts.length - 1 := by
          rw [List.length_eraseIdx_of_lt (by simpa using h), List.length_set]
        refine ⟨by omega, by omega, ?_, fun _ => Or.inr (by omega)⟩
        intro hd
        exact absurd (h3 hd).2.1 (by simp)
      · simp only [if_neg htest]
        cases hbail : P.bail with
        | some bf =>
          by_cases hfire : bf (ts.getD i default) (ts.getD j default) = 0
          · simp only [if_pos hfire]
            exact ih ts i (j + 1) did cnt
          · simp only [if_neg hfire]
            exact ⟨trivial, le_rfl, fun hd => ⟨trivial, hd, trivial⟩, fun hd => Or.inl hd⟩
        | none => exact ih ts i (j + 1) did cnt
    · simp only [if_neg h]
      exact ⟨trivial, le_rfl, fun hd => ⟨trivial, hd, trivial⟩, fun hd => Or.inl hd⟩

theorem scanJ_len_cnt (P : Policy) (fuel : Nat) (ts : List Trigger) (i j : Nat)
    (did : Bool) (cnt : Nat) :
    (scanJ P fuel ts i j did cnt).1.length + (scanJ P fuel ts i j did cnt).2.2 =
      ts.length + cnt :=
  (scanJ_props P fuel ts i j did cnt).1

theorem scanJ_cnt_mono (P : Policy) (fuel : Nat) (ts : List Trigger) (i j : Nat)
    (did : Bool) (cnt : Nat) : cnt ≤ (scanJ P fuel ts i j did cnt).2.2 :=
  (scanJ_props P fuel ts i j did cnt).2.1

theorem scanJ_length_le (P : Policy) (fuel : Nat) (ts : List Trigger) (i j : Nat)
    (did : Bool) (cnt : Nat) : (scanJ P fuel ts i j did cnt).1.length ≤ ts.length := by
  have h1 := scanJ_len_cnt P fuel ts i j did cnt
  have h2 := scanJ_cnt_mono P fuel ts i j did cnt
  omega

theorem scanJ_did_false (P : Policy) (fuel : Nat) (ts : List Trigger) (i j : Nat)
    (did : Bool) (cnt : Nat) (hd : (scanJ P fuel ts i j did cnt).2.1 = false) :
    (scanJ P fuel ts i j did cnt).1 = ts ∧ did = false ∧
      (scanJ P fuel ts i j did cnt).2.2 = cnt :=
  (scanJ_props P fuel ts i j did cnt).2.2.1 hd

theorem scanJ_cnt_lt_of_did (P : Policy) (fuel : Nat) (ts : List Trigger) (i j : Nat)
    (did : Bool) (cnt : Nat) (hd : (scanJ P fuel ts i j did cnt).2.1 = true) :
    did = true ∨ cnt < (scanJ P fuel ts i j did cnt).2.2 :=
  (scanJ_props P fuel ts i j did cnt).2.2.2 hd

/-- The outer `while i < len(triggers)` loop of `ClusterSnglInspiralTable`,
structurally recursive on `fuel`: for each `i` run the inner scan starting
at `j = i + 1` (with its exact measure as fuel), then advance `i`. -/
def scanI (P : Policy) : Nat → List Trigger → Nat → Bool → Nat →
    List Trigger × Bool × Nat
  | 0, ts, _, did, cnt => (ts, did, cnt)
  | fuel + 1, ts, i, did, cnt =>
    if i < ts.length then
      scanI P fuel (scanJFrom P ts i (i + 1) did cnt).1 (i + 1)
        (scanJFrom P ts i (i + 1) did cnt).2.1 (scanJFrom P ts i (i + 1) did cnt).2.2
    else (ts, did, cnt)

theorem scanI_props (P : Policy) (fuel : Nat) :
    ∀ ts i did cnt,
      (scanI P fuel ts i did cnt).1.length + (scanI P fuel ts i did cnt).2.2 =
          ts.length + cnt ∧
      cnt ≤ (scanI P fuel ts i did cnt).2.2 ∧
      ((scanI P fuel ts i did cnt).2.1 = false →
        (scanI P fuel ts i did cnt).1 = ts ∧ did = false ∧
          (scanI P fuel ts i did cnt).2.2 = cnt) ∧
      ((scanI P fuel ts i did cnt).2.1 = true →
        did = true ∨ cnt < (scanI P fuel ts i did cnt).2.2) := by
  induction fuel with
  | zero =>
    intro ts i did cnt
    refine ⟨by simp [scanI], by simp [scanI], ?_, ?_⟩
    · intro hd
      simp [scanI] at hd ⊢
      exact hd
    · intro hd
      simp [scanI] at hd
      exact Or.inl hd
  | succ fuel ih =>
    intro ts i did cnt
    rw [scanI]
    by_cases h : i < ts.length
    · simp only [if_pos h]
      obtain ⟨i1, i2, i3, i4⟩ := ih (scanJFrom P ts i (i + 1) did cnt).1 (i + 1)
        (scanJFrom P ts i (i + 1) did cnt).2.1 (scanJFrom P ts i (i + 1) did cnt).2.2
      have j1 := scanJ_len_cnt P (ts.length - (i + 1)) ts i (i + 1) did cnt
      have j2 := scanJ_cnt_mono P (ts.length - (i + 1)) ts i (i + 1) did cnt
      have j3 := scanJ_did_false P (ts.length - (i + 1)) ts i (i + 1) did cnt
      have j4 := scanJ_cnt_lt_of_did P (ts.length - (i + 1)) ts i (i + 1) did cnt
      unfold scanJFrom at i1 i2 i3 i4 ⊢
      refine ⟨by omega, by omega, ?_, ?_⟩
      · intro hd
        obtain ⟨e1, e2, e3⟩ := i3 hd
        obtain ⟨f1, f2, f3⟩ := j3 e2
        exact ⟨by rw [e1, f1], f2, by rw [e3, f3]⟩
      · intro hd
        rcases i4 hd with hj | hlt
        · rcases j4 hj with hdid | hlt'
          · exact Or.inl hdid
          · exact Or.inr (by omega)
        · exact Or.inr (by omega)
    · simp only [if_neg h]
      exact ⟨trivial, le_rfl, fun hd => ⟨trivial, hd, trivial⟩, fun hd => Or.inl hd⟩

theorem scanI_len_cnt (P : Policy) (fuel : Nat) (ts : List Trigger) (i : Nat)
    (did : Bool) (cnt : Nat) :
    (scanI P fuel ts i did cnt).1.length + (scanI P fuel ts i did cnt).2.2 =
      ts.length + cnt :=
  (scanI_props P fuel ts i did cnt).1

theorem scanI_did_false (P : Policy) (fuel : Nat) (ts : List Trigger) (i : Nat)
    (did : Bool) (cnt : Nat) (hd : (scanI P fuel ts i did cnt).2.1 = false) :
    (scanI P fuel ts i did cnt).1 = ts ∧ did = false ∧
      (scanI P fuel ts i did cnt).2.2 = cnt :=
  (scanI_props P fuel ts i did cnt).2.2.1 hd

theorem scanI_cnt_lt_of_did (P : Policy) (fuel : Nat) (ts : List Trigger) (i : Nat)
    (did : Bool) (cnt : Nat) (hd : (scanI P fuel ts i did cnt).2.1 = true) :
    did = true ∨ cnt < (scanI P fuel ts i did cnt).2.2 :=
  (scanI_props P fuel ts i did cnt).2.2.2 hd

/-- One full pass of the `while True:` loop of `ClusterSnglInspiralTable`:
reset `did_cluster` (and the ghost merge counter), sort when a bailout was
supplied, then run the double scan from `i = 0` (outer-loop fuel: its exact
measure, the list length). -/
def clusterPass (P : Policy) (ts : List Trigger) : List Trigger × Bool × Nat :=
  scanI P (sortIfBail P ts).length (sortIfBail P ts) 0 false 0

theorem sortIfBail_length (P : Policy) (ts : List Trigger) :
    (sortIfBail P ts).length = ts.length := by
  unfold sortIfBail
  split
  · exact List.length_insertionSort (sortLe P) ts
  · rfl

theorem clusterPass_len_cnt (P : Policy) (ts : List Trigger) :
    (clusterPass P ts).1.length + (clusterPass P ts).2.2 = ts.length := by
  have h := scanI_len_cnt P (sortIfBail P ts).length (sortIfBail P ts) 0 false 0
  have h2 := sortIfBail_length P ts
  unfold clusterPass
  omega

theorem clusterPass_length_le (P : Policy) (ts : List Trigger) :
    (clusterPass P ts).1.length ≤ ts.length := by
  have h := clusterPass_len_cnt P ts
  omega

theorem clusterPass_length_lt (P : Policy) (ts : List Trigger)
    (hd : (clusterPass P ts).2.1 = true) : (clusterPass P ts).1.length < ts.length := by
  rcases scanI_cnt_lt_of_did P (sortIfBail P ts).length (sortIfBail P ts) 0 false 0 hd
    with h | h
  · exact absurd h (by simp)
  · have hl := clusterPass_len_cnt P ts
    unfold clusterPass at hl ⊢
    omega

theorem clusterPass_did_false (P : Policy) (ts : List Trigger)
    (hd : (clusterPass P ts).2.1 = false) :
    (clusterPass P ts).1 = sortIfBail P ts ∧ (clusterPass P ts).2.2 = 0 := by
  obtain ⟨h1, _, h3⟩ := scanI_did_false P (sortIfBail P ts).length (sortIfBail P ts)
    0 false 0 hd
  exact ⟨h1, h3⟩

/-- The unbounded `while True:` loop, as a fuel-indexed function: one unit
of fuel per pass; `none` when the fuel runs out before the loop's own
`if not did_cluster: return` fires.  The second component accumulates the
ghost merge counter across passes. -/
def clusterFuel (P : Policy) : Nat → List Trigger → Nat → Option (List Trigger × Nat)
  | 0, _, _ => none
  | fuel + 1, ts, acc =>
    if (clusterPass P ts).2.1 = true then
      clusterFuel P fuel (clusterPass P ts).1 (acc + (clusterPass P ts).2.2)
    else
      some ((clusterPass P ts).1, acc + (clusterPass P ts).2.2)

theorem clusterFuel_isSome (P : Policy) (fuel : Nat) :
    ∀ (ts : List Trigger) (acc : Nat), ts.length < fuel →
      (clusterFuel P fuel ts acc).isSome = true := by
  induction fuel with
  | zero => intro ts acc h; omega
  | succ fuel ih =>
    intro ts acc h
    rw [clusterFuel]
    split
    · next hd =>
      exact ih (clusterPass P ts).1 (acc + (clusterPass P ts).2.2)
        (by have := clusterPass_length_lt P ts hd; omega)
    · simp

/-- Embedding of `ClusterSnglInspiralTable`: run passes until one performs
no merge.  `ts.length + 1` units of fuel always suffice
(`clusterFuel_isSome`), so the `getD` default is never taken; the first
component is the final trigger list, the second the total number of merges
performed. -/
def clusterRun (P : Policy) (ts : List Trigger) : List Trigger × Nat :=
  (clusterFuel P (ts.length + 1) ts 0).getD (ts, 0)

/-- The final trigger list produced by `ClusterSnglInspiralTable`. -/
def ClusterSnglInspiralTable (P : Policy) (ts : List Trigger) : List Trigger :=
  (clusterRun P ts).1

/-- Total number of merge events (`del triggers[j]`) performed over the
whole run of `ClusterSnglInspiralTable`. -/
def totalMerges (P : Policy) (ts : List Trigger) : Nat :=
  (clusterRun P ts).2

theorem clusterFuel_len (P : Policy) (fuel : Nat) :
    ∀ ts acc out c, clusterFuel P fuel ts acc = some (out, c) →
      out.length + c = ts.length + acc := by
  induction fuel with
  | zero => intro ts acc out c h; simp [clusterFuel] at h
  | succ fuel ih =>
    intro ts acc out c h
    rw [clusterFuel] at h
    split at h
    · have := ih (clusterPass P ts).1 (acc + (clusterPass P ts).2.2) out c h
      have hp := clusterPass_len_cnt P ts
      omega
    · have h2 : (clusterPass P ts).1 = out ∧ acc + (clusterPass P ts).2.2 = c := by
        have := Option.some.inj h
        exact ⟨congrArg Prod.fst this, congrArg Prod.snd this⟩
      have h3 : (clusterPass P ts).1.length = out.length := by rw [h2.1]
      have h4 := h2.2
      have hp := clusterPass_len_cnt P ts
      omega

theorem clusterRun_eq (P : Policy) (ts : List Trigger) :
    clusterFuel P (ts.length + 1) ts 0 =
      some (ClusterSnglInspiralTable P ts, totalMerges P ts) := by
  have hs := clusterFuel_isSome P (ts.length + 1) ts 0 (by omega)
  obtain ⟨r, hr⟩ := Option.isSome_iff_exists.mp hs
  unfold ClusterSnglInspiralTable totalMerges clusterRun
  rw [hr]
  rfl

theorem cluster_len_totalMerges (P : Policy) (ts : List Trigger) :
    (ClusterSnglInspiralTable P ts).length + totalMerges P ts = ts.length :=
  clusterFuel_len P (ts.length + 1) ts 0 (ClusterSnglInspiralTable P ts)
    (totalMerges P ts) (clusterRun_eq P ts)

theorem sortIfBail_mem (P : Policy) (ts : List Trigger) (x : Trigger) :
    x ∈ sortIfBail P ts ↔ x ∈ ts := by
  unfold sortIfBail
  split
  · exact List.mem_insertionSort (sortLe P)
  · exact Iff.rfl

theorem scanJ_mem (P : Policy)
    (hK : ∀ a b, P.clusterfunc a b = a ∨ P.clusterfunc a b = b) (fuel : Nat) :
    ∀ ts i j did cnt, i < j → ∀ x ∈ (scanJ P fuel ts i j did cnt).1, x ∈ ts := by
  induction fuel with
  | zero => intro ts i j did cnt _ x hx; simpa [scanJ] using hx
  | succ fuel ih =>
    intro ts i j did cnt hij x hx
    rw [scanJ] at hx
    by_cases h : j < ts.length
    · simp only [if_pos h] at hx
      by_cases htest : P.test (ts.getD i default) (ts.getD j default) P.twindow = 0
      · simp only [if_pos htest] at hx
        have hx' := ih _ i j true (cnt + 1) hij x hx
        have hx'' : x ∈ ts.set i (P.clusterfunc (ts.getD i default) (ts.getD j default)) :=
          List.mem_of_mem_eraseIdx hx'
        rcases List.mem_or_eq_of_mem_set hx'' with hmem | heq
        · exact hmem
        · have hi : i < ts.length := lt_trans hij h
          have ha : ts.getD i default ∈ ts := by
            rw [List.getD_eq_getElem ts default hi]
            exact List.getElem_mem hi
          have hb : ts.getD j default ∈ ts := by
            rw [List.getD_eq_getElem ts default h]
            exact List.getElem_mem h
          rcases hK (ts.getD i default) (ts.getD j default) with hk | hk
          · rw [heq, hk]; exact ha
          · rw [heq, hk]; exact hb
      · simp only [if_neg htest] at hx
        cases hbail : P.bail with
        | some bf =>
          rw [hbail] at hx
          by_cases hfire : bf (ts.getD i default) (ts.getD j default) = 0
          · simp only [if_pos hfire] at hx
            exact ih ts i (j + 1) did cnt (by omega) x hx
          · simp only [if_neg hfire] at hx
            exact hx
        | none =>
          rw [hbail] at hx
          exact ih ts i (j + 1) did cnt (by omega) x hx
    · simp only [if_neg h] at hx
      exact hx

theorem scanI_mem (P : Policy)
    (hK : ∀ a b, P.clusterfunc a b = a ∨ P.clusterfunc a b = b) (fuel : Nat) :
    ∀ ts i did cnt, ∀ x ∈ (scanI P fuel ts i did cnt).1, x ∈ ts := by
  induction fuel with
  | zero => intro ts i did cnt x hx; simpa [scanI] using hx
  | succ fuel ih =>
    intro ts i did cnt x hx
    rw [scanI] at hx
    by_cases h : i < ts.length
    · simp only [if_pos h] at hx
      have hx' := ih _ (i + 1) _ _ x hx
      exact scanJ_mem P hK (ts.length - (i + 1)) ts i (i + 1) did cnt (by omega) x hx'
    · simpa [h] using hx

theorem clusterPass_mem (P : Policy)
    (hK : ∀ a b, P.clusterfunc a b = a ∨ P.clusterfunc a b = b) (ts : List Trigger) :
    ∀ x ∈ (clusterPass P ts).1, x ∈ ts := by
  intro x hx
  have h1 := scanI_mem P hK (sortIfBail P ts).length (sortIfBail P ts) 0 false 0 x hx
  exact (sortIfBail_mem P ts x).mp h1

theorem clusterFuel_mem (P : Policy)
    (hK : ∀ a b, P.clusterfunc a b = a ∨ P.clusterfunc a b = b) (fuel : Nat) :
    ∀ ts acc out c, clusterFuel P fuel ts acc = some (out, c) →
      ∀ x ∈ out, x ∈ ts := by
  induction fuel with
  | zero => intro ts acc out c h; simp [clusterFuel] at h
  | succ fuel ih =>
    intro ts acc out c h x hx
    rw [clusterFuel] at h
    split at h
    · exact clusterPass_mem P hK ts x
        (ih (clusterPass P ts).1 (acc + (clusterPass P ts).2.2) out c h x hx)
    · have h2 : (clusterPass P ts).1 = out := congrArg Prod.fst (Option.some.inj h)
      exact clusterPass_mem P hK ts x (h2 ▸ hx)

theorem cluster_mem (P : Policy)
    (hK : ∀ a b, P.clusterfunc a b = a ∨ P.clusterfunc a b = b) (ts : List Trigger) :
    ∀ x ∈ ClusterSnglInspiralTable P ts, x ∈ ts :=
  clusterFuel_mem P hK (ts.length + 1) ts 0 (ClusterSnglInspiralTable P ts)
    (totalMerges P ts) (clusterRun_eq P ts)

/-- `B` dominates `A` in score: every element of `A` is matched by an
element of `B` with at least its score. -/
def Dominates (A B : List Trigger) : Prop :=
  ∀ x ∈ A, ∃ y ∈ B, x.snr ≤ y.snr

theorem dominates_refl (A : List Trigger) : Dominates A A :=
  fun x hx => ⟨x, hx, le_rfl⟩

theorem dominates_trans {A B C : List Trigger} (h1 : Dominates A B)
    (h2 : Dominates B C) : Dominates A C := by
  intro x hx
  obtain ⟨y, hy, hxy⟩ := h1 x hx
  obtain ⟨z, hz, hyz⟩ := h2 y hy
  exact ⟨z, hz, le_trans hxy hyz⟩

theorem set_erase_dominates (ts : List Trigger) (i j : Nat) (c : Trigger)
    (hij : i < j) (hj : j < ts.length)
    (hci : (ts.getD i default).snr ≤ c.snr) (hcj : (ts.getD j default).snr ≤ c.snr) :
    Dominates ts ((ts.set i c).eraseIdx j) := by
  have hi : i < ts.length := lt_trans hij hj
  have hlen : ((ts.set i c).eraseIdx j).length = ts.length - 1 := by
    rw [List.length_eraseIdx_of_lt (by simpa using hj), List.length_set]
  have hcmem : c ∈ (ts.set i c).eraseIdx j := by
    have hib : i < ((ts.set i c).eraseIdx j).length := by omega
    have he : ((ts.set i c).eraseIdx j)[i] = c := by
      rw [List.getElem_eraseIdx_of_lt (ts.set i c) j i (by omega) hij]
      rw [List.getElem_set]
      simp
    have hmem := List.getElem_mem hib
    rwa [he] at hmem
  intro x hx
  obtain ⟨m, hm, rfl⟩ := List.mem_iff_getElem.mp hx
  by_cases hmi : m = i
  · subst hmi
    rw [List.getD_eq_getElem ts default hm] at hci
    exact ⟨c, hcmem, hci⟩
  · by_cases hmj : m = j
    · subst hmj
      rw [List.getD_eq_getElem ts default hm] at hcj
      exact ⟨c, hcmem, hcj⟩
    · rcases Nat.lt_or_ge m j with hlt | hge
      · have hmb : m < ((ts.set i c).eraseIdx j).length := by omega
        have he : ((ts.set i c).eraseIdx j)[m] = ts[m] := by
          rw [List.getElem_eraseIdx_of_lt (ts.set i c) j m (by omega) hlt]
          rw [List.getElem_set]
          rw [if_neg (fun e => hmi e.symm)]
        have hmem := List.getElem_mem hmb
        rw [he] at hmem
        exact ⟨ts[m], hmem, le_rfl⟩
      · have hjm : j < m := lt_of_le_of_ne hge (fun e => hmj e.symm)
        have hmb : m - 1 < ((ts.set i c).eraseIdx j).length := by omega
        have he : ((ts.set i c).eraseIdx j)[m - 1] = ts[m] := by
          rw [List.getElem_eraseIdx_of_ge (ts.set i c) j (m - 1) (by omega) (by omega)]
          have hm1 : m - 1 + 1 = m := by omega
          simp only [hm1]
          rw [List.getElem_set]
          rw [if_neg (fun e => hmi e.symm)]
        have hmem := List.getElem_mem hmb
        rw [he] at hmem
        exact ⟨ts[m], hmem, le_rfl⟩

theorem scanJ_dom (P : Policy)
    (hD : ∀ a b, a.snr ≤ (P.clusterfunc a b).snr ∧ b.snr ≤ (P.clusterfunc a b).snr)
    (fuel : Nat) :
    ∀ ts i j did cnt, i < j → Dominates ts (scanJ P fuel ts i j did cnt).1 := by
  induction fuel with
  | zero => intro ts i j did cnt _; simpa [scanJ] using dominates_refl ts
  | succ fuel ih =>
    intro ts i j did cnt hij
    rw [scanJ]
    by_cases h : j < ts.length
    · simp only [if_pos h]
      by_cases htest : P.test (ts.getD i default) (ts.getD j default) P.twindow = 0
      · simp only [if_pos htest]
        refine dominates_trans ?_ (ih _ i j true (cnt + 1) hij)
        exact set_erase_dominates ts i j
          (P.clusterfunc (ts.getD i default) (ts.getD j default)) hij h
          (hD (ts.getD i default) (ts.getD j default)).1
          (hD (ts.getD i default) (ts.getD j default)).2
      · simp only [if_neg htest]
        cases hbail : P.bail with
        | some bf =>
          by_cases hfire : bf (ts.getD i default) (ts.getD j default) = 0
          · simp only [if_pos hfire]
            exact ih ts i (j + 1) did cnt (by omega)
          · simp only [if_neg hfire]
            exact dominates_refl ts
        | none => exact ih ts i (j + 1) did cnt (by omega)
    · simp only [if_neg h]
      exact dominates_refl ts

theorem scanI_dom (P : Policy)
    (hD : ∀ a b, a.snr ≤ (P.clusterfunc a b).snr ∧ b.snr ≤ (P.clusterfunc a b).snr)
    (fuel : Nat) :
    ∀ ts i did cnt, Dominates ts (scanI P fuel ts i did cnt).1 := by
  induction fuel with
  | zero => intro ts i did cnt; simpa [scanI] using dominates_refl ts
  | succ fuel ih =>
    intro ts i did cnt
    rw [scanI]
    by_cases h : i < ts.length
    · simp only [if_pos h]
      exact dominates_trans (scanJ_dom P hD (ts.length - (i + 1)) ts i (i + 1) did cnt
        (by omega)) (ih _ (i + 1) _ _)
    · simp only [if_neg h]
      exact dominates_refl ts

theorem sortIfBail_dom (P : Policy) (ts : List Trigger) :
    Dominates ts (sortIfBail P ts) :=
  fun x hx => ⟨x, (sortIfBail_mem P ts x).mpr hx, le_rfl⟩

theorem clusterPass_dom (P : Policy)
    (hD : ∀ a b, a.snr ≤ (P.clusterfunc a b).snr ∧ b.snr ≤ (P.clusterfunc a b).snr)
    (ts : List Trigger) : Dominates ts (clusterPass P ts).1 :=
  dominates_trans (sortIfBail_dom P ts)
    (scanI_dom P hD (sortIfBail P ts).length (sortIfBail P ts) 0 false 0)

theorem clusterFuel_dom (P : Policy)
    (hD : ∀ a b, a.snr ≤ (P.clusterfunc a b).snr ∧ b.snr ≤ (P.clusterfunc a b).snr)
    (fuel : Nat) :
    ∀ ts acc out c, clusterFuel P fuel ts acc = some (out, c) → Dominates ts out := by
  induction fuel with
  | zero => intro ts acc out c h; simp [clusterFuel] at h
  | succ fuel ih =>
    intro ts acc out c h
    rw [clusterFuel] at h
    split at h
    · exact dominates_trans (clusterPass_dom P hD ts)
        (ih (clusterPass P ts).1 (acc + (clusterPass P ts).2.2) out c h)
    · have h2 : (clusterPass P ts).1 = out := congrArg Prod.fst (Option.some.inj h)
      exact h2 ▸ clusterPass_dom P hD ts

theorem cluster_dom (P : Policy)
    (hD : ∀ a b, a.snr ≤ (P.clusterfunc a b).snr ∧ b.snr ≤ (P.clusterfunc a b).snr)
    (ts : List Trigger) : Dominates ts (ClusterSnglInspiralTable P ts) :=
  clusterFuel_dom P hD (ts.length + 1) ts 0 (ClusterSnglInspiralTable P ts)
    (totalMerges P ts) (clusterRun_eq P ts)

/-- The caller contract of §4.1/§7 of the spec for the pre-pass sort: when a
bailout is supplied, `testfunc` must be a consistent comparator (its induced
order total and transitive); with no bailout, no sort happens and nothing is
required. -/
def LawfulSort (P : Policy) : Prop :=
  P.bail = none ∨
    ((∀ a b, sortLe P a b ∨ sortLe P b a) ∧
     (∀ a b c, sortLe P a b → sortLe P b c → sortLe P a c))

theorem sortIfBail_idem (P : Policy) (hL : LawfulSort P) (ts : List Trigger) :
    sortIfBail P (sortIfBail P ts) = sortIfBail P ts := by
  rcases hL with hnone | ⟨htot, htrans⟩
  · unfold sortIfBail
    rw [hnone]
    simp
  · unfold sortIfBail
    by_cases hb : P.bail.isSome
    · simp only [if_pos hb]
      haveI : IsTotal Trigger (sortLe P) := ⟨htot⟩
      haveI : IsTrans Trigger (sortLe P) := ⟨fun a b c => htrans a b c⟩
      exact List.Sorted.insertionSort_eq (List.sorted_insertionSort (sortLe P) ts)
    · simp [hb]

theorem clusterFuel_fix (P : Policy) (hL : LawfulSort P) (fuel : Nat) :
    ∀ ts acc out c, clusterFuel P fuel ts acc = some (out, c) →
      clusterPass P out = (out, false, 0) := by
  induction fuel with
  | zero => intro ts acc out c h; simp [clusterFuel] at h
  | succ fuel ih =>
    intro ts acc out c h
    rw [clusterFuel] at h
    split at h
    · exact ih _ _ _ _ h
    · next hd =>
      have hd' : (clusterPass P ts).2.1 = false := by simpa using hd
      have h2 : (clusterPass P ts).1 = out := congrArg Prod.fst (Option.some.inj h)
      obtain ⟨hsort, hcnt⟩ := clusterPass_did_false P ts hd'
      have hout : out = sortIfBail P ts := by rw [← h2, hsort]
      have hso : sortIfBail P out = sortIfBail P ts := by
        rw [hout]
        exact sortIfBail_idem P hL ts
      have hcp : clusterPass P out = clusterPass P ts := by
        unfold clusterPass
        rw [hso]
      rw [hcp]
      have hexp : clusterPass P ts =
          ((clusterPass P ts).1, (clusterPass P ts).2.1, (clusterPass P ts).2.2) := rfl
      rw [hexp, h2, hd', hcnt]

/-- Time-window comparison in the style of the sngl_inspiral comparison
functions (they live outside this fragment of the repository; modelled from
the spec: `is_distinct(a, b, w)` is true exactly when
`|time(a) - time(b)| > w`, and as a comparator it orders by time):
negative when `a` is more than `w` before `b`, positive when `b` is more
than `w` before `a`, `0` ("cluster them") when the times are within `w`. -/
def timeTest (a b : Trigger) (w : Int) : Int :=
  if a.time + w < b.time then -1 else if b.time + w < a.time then 1 else 0

/-- A score-based comparator (compare by `snr`, third argument ignored), as
used by snr-sorting call sites; exhibits that the pre-pass sort orders by
whatever `testfunc` compares, not necessarily by time. -/
def snrTest (a b : Trigger) (_w : Int) : Int :=
  if a.snr < b.snr then -1 else if b.snr < a.snr then 1 else 0

/-- The canonical policy of the spec: time-window `testfunc` with window
`w` (default window `0` for the sort comparator, as in the repository's
comparison functions), canonical `SnglInspiralCluster` merge, and optional
bailout `bf`. -/
def canonicalP (w : Int) (bf : Option (Trigger → Trigger → Int)) : Policy :=
  ⟨timeTest, 0, SnglInspiralCluster, w, bf⟩

theorem SnglInspiralCluster_choice (a b : Trigger) :
    SnglInspiralCluster a b = a ∨ SnglInspiralCluster a b = b := by
  unfold SnglInspiralCluster
  split
  · exact Or.inr rfl
  · exact Or.inl rfl

theorem SnglInspiralCluster_snr (a b : Trigger) :
    a.snr ≤ (SnglInspiralCluster a b).snr ∧ b.snr ≤ (SnglInspiralCluster a b).snr := by
  unfold SnglInspiralCluster
  split
  · next h => exact ⟨h, le_rfl⟩
  · next h => exact ⟨le_rfl, by omega⟩

/-- C2: the canonical merge policy `SnglInspiralCluster` returns `b` when
`score(b) >= score(a)` and `a` otherwise; in particular on equal scores it
returns exactly the second argument `b`. -/
theorem C2_merge_policy (a b : Trigger) :
    (a.snr ≤ b.snr → SnglInspiralCluster a b = b) ∧
    (b.snr < a.snr → SnglInspiralCluster a b = a) ∧
    (a.snr = b.snr → SnglInspiralCluster a b = b) := by
  unfold SnglInspiralCluster
  refine ⟨fun h => ?_, fun h => ?_, fun h => ?_⟩
  · rw [if_pos (by omega)]
  · rw [if_neg (by omega)]
  · rw [if_pos (by omega)]

/-- Witness for C2 at concrete triggers: higher second, higher first, tie. -/
theorem C2_merge_policy_witness :
    SnglInspiralCluster ⟨0, 1, 0⟩ ⟨5, 2, 1⟩ = ⟨5, 2, 1⟩ ∧
    SnglInspiralCluster ⟨0, 3, 0⟩ ⟨5, 2, 1⟩ = ⟨0, 3, 0⟩ ∧
    SnglInspiralCluster ⟨0, 2, 0⟩ ⟨5, 2, 1⟩ = ⟨5, 2, 1⟩ :=
  ⟨(C2_merge_policy ⟨0, 1, 0⟩ ⟨5, 2, 1⟩).1 (by decide),
   (C2_merge_policy ⟨0, 3, 0⟩ ⟨5, 2, 1⟩).2.1 (by decide),
   (C2_merge_policy ⟨0, 2, 0⟩ ⟨5, 2, 1⟩).2.2 (by decide)⟩

/-- C5: the concrete cascading scenario — times `[0, 5, 11]`, scores
`[3, 7, 2]`, window 10, canonical merge, time-window `is_distinct` — 
converges to a single surviving trigger with score 7. -/
theorem C5_cascade_scenario :
    ClusterSnglInspiralTable (canonicalP 10 none)
        [⟨0, 3, 0⟩, ⟨5, 7, 1⟩, ⟨11, 2, 2⟩] = [⟨5, 7, 1⟩] ∧
    (ClusterSnglInspiralTable (canonicalP 10 none)
        [⟨0, 3, 0⟩, ⟨5, 7, 1⟩, ⟨11, 2, 2⟩]).length = 1 ∧
    (ClusterSnglInspiralTable (canonicalP 10 none)
        [⟨0, 3, 0⟩, ⟨5, 7, 1⟩, ⟨11, 2, 2⟩]).map Trigger.snr = [7] := by
  decide

/-- Counterexample to C7 as stated: with the canonical policies, input
triggers `(time, snr) = (0,1), (3,2), (1,2), (5,1)` survive as 1 trigger
under window 2 but as 2 triggers under the larger window 3 — the larger
window makes the first trigger absorb `(3,2)` and then `(1,2)`, moving the
surviving representative to time 1, out of reach of `(5,1)`, which under
window 2 is instead absorbed by `(3,2)`. -/
theorem C7_counterexample :
    (2 : Int) ≤ 3 ∧
    (ClusterSnglInspiralTable (canonicalP 2 none)
        [⟨0, 1, 0⟩, ⟨3, 2, 1⟩, ⟨1, 2, 2⟩, ⟨5, 1, 3⟩]).length = 1 ∧
    (ClusterSnglInspiralTable (canonicalP 3 none)
        [⟨0, 1, 0⟩, ⟨3, 2, 1⟩, ⟨1, 2, 2⟩, ⟨5, 1, 3⟩]).length = 2 := by
  decide

/-- C7 amended: the surviving-trigger count is not monotone in the window
(see `C7_counterexample`); what does hold, for every policy and window, is
that clustering never increases the number of triggers: the output length
is at most the input length. -/
theorem C7_amended (P : Policy) (ts : List Trigger) :
    (ClusterSnglInspiralTable P ts).length ≤ ts.length := by
  have h := cluster_len_totalMerges P ts
  omega

/-- Counterexample to C8 as stated: same three triggers (times `0, 10, 20`,
scores `5, 5, 1`, window 10, canonical merge, no bailout) in two orders:
in one order the tie-break keeps the middle trigger, which then absorbs
`(20, 1)`, leaving score multiset `{5}`; in the permuted order the
tie-break keeps the trigger at time 0, so `(20, 1)` survives, leaving
`{5, 1}`. -/
theorem C8_counterexample :
    List.Perm ([⟨0, 5, 0⟩, ⟨10, 5, 1⟩, ⟨20, 1, 2⟩] : List Trigger)
      [⟨10, 5, 1⟩, ⟨0, 5, 0⟩, ⟨20, 1, 2⟩] ∧
    (ClusterSnglInspiralTable (canonicalP 10 none)
        [⟨0, 5, 0⟩, ⟨10, 5, 1⟩, ⟨20, 1, 2⟩]).map Trigger.snr = [5] ∧
    (ClusterSnglInspiralTable (canonicalP 10 none)
        [⟨10, 5, 1⟩, ⟨0, 5, 0⟩, ⟨20, 1, 2⟩]).map Trigger.snr = [5, 1] := by
  decide

/-- C8 amended: the multiset of surviving scores is not permutation
invariant (see `C8_counterexample`); what is invariant is that, for every
permutation of the input, the survivors are drawn from the input and every
input score is dominated by some survivor's score (hence the maximum
surviving score equals the maximum input score for all permutations). -/
theorem C8_amended (w : Int) (ts ts' : List Trigger) (hp : List.Perm ts ts') :
    (∀ y ∈ ClusterSnglInspiralTable (canonicalP w none) ts', y ∈ ts) ∧
    (∀ x ∈ ts, ∃ y ∈ ClusterSnglInspiralTable (canonicalP w none) ts',
      x.snr ≤ y.snr) := by
  constructor
  · intro y hy
    exact hp.mem_iff.mpr
      (cluster_mem (canonicalP w none) (fun a b => SnglInspiralCluster_choice a b) ts' y hy)
  · intro x hx
    exact cluster_dom (canonicalP w none) (fun a b => SnglInspiralCluster_snr a b) ts' x
      (hp.mem_iff.mp hx)

/-- Witness for C8 amended at a concrete permutation pair. -/
theorem C8_amended_witness :
    List.Perm ([⟨0, 5, 0⟩, ⟨10, 5, 1⟩, ⟨20, 1, 2⟩] : List Trigger)
      [⟨10, 5, 1⟩, ⟨0, 5, 0⟩, ⟨20, 1, 2⟩] ∧
    (∀ y ∈ ClusterSnglInspiralTable (canonicalP 10 none)
        [⟨10, 5, 1⟩, ⟨0, 5, 0⟩, ⟨20, 1, 2⟩],
      y ∈ ([⟨0, 5, 0⟩, ⟨10, 5, 1⟩, ⟨20, 1, 2⟩] : List Trigger)) ∧
    (∀ x ∈ ([⟨0, 5, 0⟩, ⟨10, 5, 1⟩, ⟨20, 1, 2⟩] : List Trigger),
      ∃ y ∈ ClusterSnglInspiralTable (canonicalP 10 none)
        [⟨10, 5, 1⟩, ⟨0, 5, 0⟩, ⟨20, 1, 2⟩], x.snr ≤ y.snr) :=
  ⟨by decide,
   (C8_amended 10 [⟨0, 5, 0⟩, ⟨10, 5, 1⟩, ⟨20, 1, 2⟩]
     [⟨10, 5, 1⟩, ⟨0, 5, 0⟩, ⟨20, 1, 2⟩] (by decide)).1,
   (C8_amended 10 [⟨0, 5, 0⟩, ⟨10, 5, 1⟩, ⟨20, 1, 2⟩]
     [⟨10, 5, 1⟩, ⟨0, 5, 0⟩, ⟨20, 1, 2⟩] (by decide)).2⟩

/-- Counterexample to C1 as stated: with a bailout supplied, the pre-pass
sort `triggers.sort(testfunc)` orders by `testfunc`, not by time.  With the
snr comparator as `testfunc`, the list scanned at the start of the first
pass (`sortIfBail` applied to the input, as in `clusterPass`) has times
`[100, 0]` — adjacent times are not ascending. -/
theorem C1_counterexample :
    ((sortIfBail ⟨snrTest, 0, SnglInspiralCluster, 10, (some fun _ _ => 0)⟩
        [⟨100, 1, 0⟩, ⟨0, 2, 1⟩]).map Trigger.time = [100, 0]) ∧
    ¬ ((sortIfBail ⟨snrTest, 0, SnglInspiralCluster, 10, (some fun _ _ => 0)⟩
        [⟨100, 1, 0⟩, ⟨0, 2, 1⟩]).Pairwise (fun a b => a.time ≤ b.time)) := by
  decide

/-- C1 amended: when a bailout predicate is supplied the engine sorts the
sequence before every pass using `testfunc` (with its default third
argument) as the comparison — the list a pass scans is `sortIfBail` of the
current sequence — and this start-of-pass list is time-ascending exactly
when `testfunc` orders by time: with the time comparator `timeTest`
(default window 0) every adjacent pair of the start-of-pass list has
non-decreasing times, for every merge policy, window and bailout. -/
theorem C1_amended (w : Int) (k : Trigger → Trigger → Trigger)
    (bf : Trigger → Trigger → Int) (ts : List Trigger) :
    (sortIfBail ⟨timeTest, 0, k, w, some bf⟩ ts).Pairwise
      (fun a b => a.time ≤ b.time) := by
  have hq : ∀ a b : Trigger,
      sortLe ⟨timeTest, 0, k, w, some bf⟩ a b ↔ a.time ≤ b.time := by
    intro a b
    unfold sortLe timeTest
    dsimp only
    split_ifs <;> omega
  haveI : IsTotal Trigger (sortLe ⟨timeTest, 0, k, w, some bf⟩) :=
    ⟨fun a b => by rw [hq, hq]; omega⟩
  haveI : IsTrans Trigger (sortLe ⟨timeTest, 0, k, w, some bf⟩) :=
    ⟨fun a b c h1 h2 => by rw [hq] at h1 h2 ⊢; omega⟩
  have hs := List.sorted_insertionSort (sortLe ⟨timeTest, 0, k, w, some bf⟩) ts
  unfold sortIfBail
  rw [if_pos (by rfl)]
  exact List.Pairwise.imp (fun h => (hq _ _).mp h) hs

/-- C3: one step of the inner scan, at indices `i < j` with `j` in range.
If the test says "cluster" (returns 0), the engine replaces `triggers[i]`
by the merge, removes index `j`, records the merge (`did = true`, counter
incremented) and re-examines the same `j`; if the test says "distinct" and
the bailout does not fire (absent, or returning 0), `j` advances by one. -/
theorem C3_inner_step (P : Policy) (ts : List Trigger) (i j : Nat) (did : Bool)
    (cnt : Nat) (hij : i < j) (hj : j < ts.length) :
    (P.test (ts.getD i default) (ts.getD j default) P.twindow = 0 →
      scanJFrom P ts i j did cnt =
        scanJFrom P
          ((ts.set i (P.clusterfunc (ts.getD i default) (ts.getD j default))).eraseIdx j)
          i j true (cnt + 1)) ∧
    (P.test (ts.getD i default) (ts.getD j default) P.twindow ≠ 0 →
      (∀ bf, P.bail = some bf → bf (ts.getD i default) (ts.getD j default) = 0) →
      scanJFrom P ts i j did cnt = scanJFrom P ts i (j + 1) did cnt) := by
  have hf : ts.length - j = (ts.length - j - 1) + 1 := by omega
  constructor
  · intro htest
    unfold scanJFrom
    rw [hf, scanJ]
    rw [if_pos hj, if_pos htest]
    have hlen : ((ts.set i
        (P.clusterfunc (ts.getD i default) (ts.getD j default))).eraseIdx j).length =
        ts.length - 1 := by
      rw [List.length_eraseIdx_of_lt (by simpa using hj), List.length_set]
    rw [show ((ts.set i
        (P.clusterfunc (ts.getD i default) (ts.getD j default))).eraseIdx j).length - j =
        ts.length - j - 1 from by omega]
  · intro htest hnb
    unfold scanJFrom
    rw [hf, scanJ]
    rw [if_pos hj, if_neg htest]
    cases hbail : P.bail with
    | some bf =>
      dsimp only
      rw [if_pos (hnb bf hbail)]
      rw [show ts.length - (j + 1) = ts.length - j - 1 from by omega]
    | none =>
      dsimp only
      rw [show ts.length - (j + 1) = ts.length - j - 1 from by omega]

/-- Witness for C3 at concrete inputs: a merging step (times 0 and 5 within
window 10: the pair is merged, `j` stays, `did` set, counter bumped) and an
advancing step (times 0 and 20, no bailout: `j` advances). -/
theorem C3_inner_step_witness :
    (0 : Nat) < 1 ∧ 1 < 2 ∧
    scanJFrom (canonicalP 10 none) [⟨0, 3, 0⟩, ⟨5, 7, 1⟩] 0 1 false 0 =
      scanJFrom (canonicalP 10 none) [⟨5, 7, 1⟩] 0 1 true 1 ∧
    scanJFrom (canonicalP 10 none) [⟨0, 3, 0⟩, ⟨20, 7, 1⟩] 0 1 false 0 =
      scanJFrom (canonicalP 10 none) [⟨0, 3, 0⟩, ⟨20, 7, 1⟩] 0 2 false 0 :=
  ⟨by decide, by decide,
   (C3_inner_step (canonicalP 10 none) [⟨0, 3, 0⟩, ⟨5, 7, 1⟩] 0 1 false 0
     (by decide) (by decide)).1 (by decide),
   (C3_inner_step (canonicalP 10 none) [⟨0, 3, 0⟩, ⟨20, 7, 1⟩] 0 1 false 0
     (by decide) (by decide)).2 (by decide) (fun bf h => Option.noConfusion h)⟩

/-- C9: termination — a pass that performed a merge strictly shrinks the
sequence; a pass with no merge immediately ends the loop (one unit of fuel
suffices from that state); and `length + 1` passes of fuel always suffice
for the whole run. -/
theorem C9_termination (P : Policy) (ts : List Trigger) :
    ((clusterPass P ts).2.1 = true → (clusterPass P ts).1.length < ts.length) ∧
    (∀ fuel acc, (clusterPass P ts).2.1 = false →
      clusterFuel P (fuel + 1) ts acc =
        some ((clusterPass P ts).1, acc + (clusterPass P ts).2.2)) ∧
    (clusterFuel P (ts.length + 1) ts 0).isSome = true := by
  refine ⟨clusterPass_length_lt P ts, ?_, clusterFuel_isSome P (ts.length + 1) ts 0
    (by omega)⟩
  intro fuel acc hd
  rw [clusterFuel]
  rw [if_neg (by simp [hd])]

/-- Witness for C9: a merging pass on two close triggers shrinks the list;
a singleton's pass performs no merge and the loop returns at once; fuel
`length + 1 = 3` succeeds on the two-trigger input. -/
theorem C9_termination_witness :
    (clusterPass (canonicalP 10 none) [⟨0, 1, 0⟩, ⟨5, 2, 1⟩]).1.length < 2 ∧
    clusterFuel (canonicalP 10 none) 1 [⟨0, 1, 0⟩] 0 =
      some ((clusterPass (canonicalP 10 none) [⟨0, 1, 0⟩]).1,
        0 + (clusterPass (canonicalP 10 none) [⟨0, 1, 0⟩]).2.2) ∧
    (clusterFuel (canonicalP 10 none) 3 [⟨0, 1, 0⟩, ⟨5, 2, 1⟩] 0).isSome = true :=
  ⟨(C9_termination (canonicalP 10 none) [⟨0, 1, 0⟩, ⟨5, 2, 1⟩]).1 (by decide),
   (C9_termination (canonicalP 10 none) [⟨0, 1, 0⟩]).2.1 0 0 (by decide),
   (C9_termination (canonicalP 10 none) [⟨0, 1, 0⟩, ⟨5, 2, 1⟩]).2.2⟩

/-- C10: when the merge policy always returns one of its arguments (as the
canonical `SnglInspiralCluster` does), every surviving trigger is an
element of the original input, and the final length plus the total number
of merges performed equals the initial length — nothing is fabricated and
nothing is dropped except by merging. -/
theorem C10_provenance (P : Policy) (ts : List Trigger)
    (hK : ∀ a b, P.clusterfunc a b = a ∨ P.clusterfunc a b = b) :
    (∀ y ∈ ClusterSnglInspiralTable P ts, y ∈ ts) ∧
    (ClusterSnglInspiralTable P ts).length + totalMerges P ts = ts.length :=
  ⟨cluster_mem P hK ts, cluster_len_totalMerges P ts⟩

/-- Witness for C10 with the canonical merge policy on a concrete list. -/
theorem C10_provenance_witness :
    (∀ y ∈ ClusterSnglInspiralTable (canonicalP 10 none) [⟨0, 1, 0⟩, ⟨5, 2, 1⟩],
      y ∈ ([⟨0, 1, 0⟩, ⟨5, 2, 1⟩] : List Trigger)) ∧
    (ClusterSnglInspiralTable (canonicalP 10 none) [⟨0, 1, 0⟩, ⟨5, 2, 1⟩]).length +
      totalMerges (canonicalP 10 none) [⟨0, 1, 0⟩, ⟨5, 2, 1⟩] = 2 :=
  C10_provenance (canonicalP 10 none) [⟨0, 1, 0⟩, ⟨5, 2, 1⟩]
    (fun a b => SnglInspiralCluster_choice a b)

/-- C4: idempotence — under the spec's caller contract for the sort
comparator (`LawfulSort`: no bailout, or `testfunc` a total and transitive
comparator), running the engine again on a completed run's output performs
zero merges (its single pass reports no clustering and the total merge
count of the second run is zero) and returns the sequence unchanged. -/
theorem cluster_of_pass_false (P : Policy) (l : List Trigger)
    (h : clusterPass P l = (l, false, 0)) :
    ClusterSnglInspiralTable P l = l ∧ totalMerges P l = 0 := by
  unfold ClusterSnglInspiralTable totalMerges clusterRun
  rw [clusterFuel, h]
  simp

theorem C4_idempotent (P : Policy) (ts : List Trigger) (hL : LawfulSort P) :
    (clusterPass P (ClusterSnglInspiralTable P ts)).2.1 = false ∧
    totalMerges P (ClusterSnglInspiralTable P ts) = 0 ∧
    ClusterSnglInspiralTable P (ClusterSnglInspiralTable P ts) =
      ClusterSnglInspiralTable P ts := by
  have hfix := clusterFuel_fix P hL (ts.length + 1) ts 0 (ClusterSnglInspiralTable P ts)
    (totalMerges P ts) (clusterRun_eq P ts)
  exact ⟨by rw [hfix], (cluster_of_pass_false P _ hfix).2,
    (cluster_of_pass_false P _ hfix).1⟩

/-- Witness for C4: canonical policy without bailout (hypothesis
discharged by the left disjunct) on a concrete two-trigger list. -/
theorem C4_idempotent_witness :
    (clusterPass (canonicalP 10 none)
      (ClusterSnglInspiralTable (canonicalP 10 none) [⟨0, 1, 0⟩, ⟨5, 2, 1⟩])).2.1 =
        false ∧
    totalMerges (canonicalP 10 none)
      (ClusterSnglInspiralTable (canonicalP 10 none) [⟨0, 1, 0⟩, ⟨5, 2, 1⟩]) = 0 ∧
    ClusterSnglInspiralTable (canonicalP 10 none)
      (ClusterSnglInspiralTable (canonicalP 10 none) [⟨0, 1, 0⟩, ⟨5, 2, 1⟩]) =
      ClusterSnglInspiralTable (canonicalP 10 none) [⟨0, 1, 0⟩, ⟨5, 2, 1⟩] :=
  C4_idempotent (canonicalP 10 none) [⟨0, 1, 0⟩, ⟨5, 2, 1⟩] (Or.inl rfl)

/-- Embedding of the threshold pre-filter step of `ligolw_sicluster(doc,
**kwargs)` (the `# Delete all triggers below threshold` block): when
`snr_threshold > 0` the code intends to drop rows with
`snr < snr_threshold`, but the `for trigger in snglinspiraltable.rows:`
loop sits inside the `if kwargs["verbose"]` block, and its body
`del trigger` only unbinds the loop variable — Python's `del name` on a
loop variable does not remove the row from the list.  The table rows are
therefore returned unchanged on every path. -/
def sicluster_prefilter (snr_threshold : Int) (verbose : Bool)
    (rows : List Trigger) : List Trigger :=
  if 0 < snr_threshold then
    if verbose then
      rows
    else rows
  else rows

/-- What the spec describes for the same step: discard the triggers whose
score is below the threshold (modelled from the spec, for comparison with
`sicluster_prefilter`). -/
def prefilterSpec (snr_threshold : Int) (rows : List Trigger) : List Trigger :=
  if 0 < snr_threshold then rows.filter (fun t => snr_threshold ≤ t.snr) else rows

/-- The `ligolw_sicluster` data path on the trigger rows: threshold
pre-filter, then `ClusterSnglInspiralTable` (process-table bookkeeping and
the optional final snr sort do not change which rows survive). -/
def ligolw_sicluster_rows (P : Policy) (snr_threshold : Int) (verbose : Bool)
    (rows : List Trigger) : List Trigger :=
  ClusterSnglInspiralTable P (sicluster_prefilter snr_threshold verbose rows)

/-- C6 (code evaluation at the failing input): with threshold 2 strictly
above the only trigger's score 1 (and positive, so the filter is active),
the spec requires an empty sequence after pre-filtering and an empty final
output; the code leaves the trigger in the table on both verbosity paths,
and the final output is the nonempty `[⟨0, 1, 0⟩]` — while the spec's
intended filter (`prefilterSpec`) does yield `[]`. -/
theorem C6_code_evaluation :
    (1 : Int) < 2 ∧
    sicluster_prefilter 2 true [⟨0, 1, 0⟩] = [⟨0, 1, 0⟩] ∧
    sicluster_prefilter 2 false [⟨0, 1, 0⟩] = [⟨0, 1, 0⟩] ∧
    ligolw_sicluster_rows (canonicalP 10 none) 2 true [⟨0, 1, 0⟩] = [⟨0, 1, 0⟩] ∧
    prefilterSpec 2 [⟨0, 1, 0⟩] = [] := by
  decide
